import Mathlib

/-!
Verification of the polynomial-ring arithmetic core of an ML-KEM (Kyber-family)
implementation: scalar compression codecs, signed/unsigned normalization,
NTT round-trip, cached base multiplication, noise sampling and message codec.

Machine integers are embedded as `Nat`/`Int` with explicit `% 2^32` where the
C code relies on `uint32_t` wrap-around. Ring elements are sequences of 256
coefficients; NTT-domain arithmetic is modelled over `ZMod 3329`, which
identifies "congruent modulo q and reduced to canonical range" with equality.
-/

def MLKEM_Q : ℕ := 3329

/-- The `uint32_t` modulus: all 32-bit unsigned arithmetic wraps modulo `2^32`. -/
def U32 : ℕ := 2 ^ 32

/-- From `src/mlkem/poly.h` (`scalar_compress_q_16`): `d0 = u; d0 <<= 4;
`d0 += 1665; d0 *= 80635;` (wrapping), `d0 >>= 28; d0 &= 0xF`. -/
def scalar_compress_q_16 (u : ℕ) : ℕ :=
  let d0 := (u * 16) % U32
  let d1 := (d0 + 1665) % U32
  let d2 := (d1 * 80635) % U32
  let d3 := d2 / 2 ^ 28
  d3 % 16

/-- From `src/mlkem/poly.h` (`scalar_decompress_q_16`):
`((u * MLKEM_Q) + 8) / 16` in `uint32_t` arithmetic. -/
def scalar_decompress_q_16 (u : ℕ) : ℕ :=
  ((u * MLKEM_Q) + 8) % U32 / 16

/-- From `src/mlkem/poly.h` (`scalar_compress_q_32`): `d0 = u; d0 <<= 5;
`d0 += 1664; d0 *= 40318;` (wrapping), `d0 >>= 27; d0 &= 0x1f`. -/
def scalar_compress_q_32 (u : ℕ) : ℕ :=
  let d0 := (u * 32) % U32
  let d1 := (d0 + 1664) % U32
  let d2 := (d1 * 40318) % U32
  let d3 := d2 / 2 ^ 27
  d3 % 32

/-- From `src/mlkem/poly.h` (`scalar_decompress_q_32`):
`((u * MLKEM_Q) + 16) / 32` in `uint32_t` arithmetic. -/
def scalar_decompress_q_32 (u : ℕ) : ℕ :=
  ((u * MLKEM_Q) + 16) % U32 / 32

/-- Modelled from the spec: `cmov_int16` (declared in `verify.h`, which is not
under `src/`) — a constant-time conditional move that overwrites the target
with `v` exactly when the condition holds. -/
def cmov_int16 (c v : ℤ) (cond : Bool) : ℤ :=
  if cond then v else c

/-- From `src/mlkem/poly.h` (`scalar_signed_to_unsigned_q_16`):
`cmov_int16(&c, c + MLKEM_Q, c < 0)` and return the (now non-negative) value. -/
def scalar_signed_to_unsigned_q_16 (c : ℤ) : ℤ :=
  cmov_int16 c (c + (MLKEM_Q : ℤ)) (decide (c < 0))

/-- Absolute difference of two naturals (truncated subtraction both ways). -/
def absDiff (a b : ℕ) : ℕ := (a - b) + (b - a)

/-- Distance between two canonical residues measured modulo `q`
(the shorter way around the cycle of `q` residues). -/
def modQDist (a b : ℕ) : ℕ := min (absDiff a b) (MLKEM_Q - absDiff a b)

instance fact_prime_3329 : Fact (Nat.Prime 3329) := ⟨by norm_num⟩

/-- The primitive 256th root of unity modulo `q = 3329` used by the NTT
(q ≡ 1 mod 256, as the spec requires). -/
def zeta : ZMod 3329 := 17

/-- The inverse of `zeta` modulo `q` (indeed `17 * 1175 = 19975 = 6q + 1`). -/
def zetaInv : ZMod 3329 := 1175

/-- The inverse of `128` modulo `q`, the scaling factor the inverse transform
absorbs (`128 * 3303 = 422784 = 127q + 1`). -/
def inv128 : ZMod 3329 := 3303

/-- Reversal of the 7 bits of an index below 128, fixing the order in which
the transform's twiddle factors `zeta^(2*bitrev7(i)+1)` are consumed. -/
def bitrev7 (i : Fin 128) : Fin 128 :=
  ⟨64 * (i.val % 2) + 32 * (i.val / 2 % 2) + 16 * (i.val / 4 % 2) + 8 * (i.val / 8 % 2) +
    4 * (i.val / 16 % 2) + 2 * (i.val / 32 % 2) + i.val / 64 % 2, by omega⟩

set_option maxRecDepth 40000 in
/-- Bit reversal on 7 bits as an equivalence (it is an involution). -/
def brEquiv : Fin 128 ≃ Fin 128 :=
  ⟨bitrev7, bitrev7, by decide, by decide⟩

/-- Index of the even (`ε = 0`) or odd (`ε = 1`) member of coefficient pair `i`
in the length-256 coefficient array. -/
def pairIdx (i : Fin 128) (ε : Fin 2) : Fin 256 := ⟨2 * i.val + ε.val, by omega⟩

/-- The even (`ε = 0`) or odd (`ε = 1`) half of a ring element, as a
length-128 sequence. -/
def subPoly (a : Fin 256 → ZMod 3329) (ε : Fin 2) : Fin 128 → ZMod 3329 :=
  fun j => a (pairIdx j ε)

/-- Forward transform of one half: evaluation of the half-polynomial at the
odd powers `zeta^(2*bitrev7(i)+1)`. -/
def nttHalf (f : Fin 128 → ZMod 3329) : Fin 128 → ZMod 3329 :=
  fun i => ∑ j : Fin 128, f j * zeta ^ ((2 * (bitrev7 i).val + 1) * j.val)

/-- Inverse transform of one half, including the `1/128` scaling that the
implementation folds into the Montgomery rescale and reduction. -/
def inttHalf (g : Fin 128 → ZMod 3329) : Fin 128 → ZMod 3329 :=
  fun j => inv128 * ∑ i : Fin 128, g i * zetaInv ^ ((2 * (bitrev7 i).val + 1) * j.val)

/-- Modelled from the spec: the forward NTT (`ntt_asm_clean` and the reference
`poly_ntt` it replaces are not under `src/`). The negacyclic transform for
`X^256 + 1` splits into independent transforms of the even and odd coefficient
halves, evaluated at the 128 odd powers of the primitive 256th root of unity,
with twiddle factors consumed in 7-bit bit-reversed order. -/
def ntt (a : Fin 256 → ZMod 3329) : Fin 256 → ZMod 3329 :=
  fun k => nttHalf (subPoly a ⟨k.val % 2, by omega⟩) ⟨k.val / 2, by omega⟩

/-- Modelled from the spec: the inverse NTT (`intt_asm_clean` and the
reference `poly_invntt_tomont` are not under `src/`), with the fixed `1/128`
scaling factor absorbed into the `poly_tomont`/reduction convention. -/
def intt (g : Fin 256 → ZMod 3329) : Fin 256 → ZMod 3329 :=
  fun k => inttHalf (subPoly g ⟨k.val % 2, by omega⟩) ⟨k.val / 2, by omega⟩

/-- Twiddle factor of NTT-domain coefficient pair `i`: the quadratic modulus
of pair `i` is `X^2 - zeta^(2*bitrev7(i)+1)`. -/
def zetaPair (i : Fin 128) : ZMod 3329 := zeta ^ (2 * (bitrev7 i).val + 1)

/-- Modelled from the spec: `poly_mulcache_compute` (only declared in
`src/mlkem/poly.h`) derives, for each NTT-domain coefficient pair of `b`, the
precomputed product of the odd coefficient with the pair's twiddle factor. -/
def poly_mulcache_compute (b : Fin 256 → ZMod 3329) : Fin 128 → ZMod 3329 :=
  fun i => b (pairIdx i 1) * zetaPair i

/-- Modelled from the spec: the from-scratch (cache-free) NTT-domain base
multiplication — in each pair `i`, multiplication of the two linear
polynomials modulo `X^2 - zetaPair i`. This is the reference the cached
variant is compared against. -/
def poly_basemul_montgomery (a b : Fin 256 → ZMod 3329) : Fin 256 → ZMod 3329 :=
  fun k =>
    if k.val % 2 = 0 then
      a (pairIdx ⟨k.val / 2, by omega⟩ 0) * b (pairIdx ⟨k.val / 2, by omega⟩ 0) +
        a (pairIdx ⟨k.val / 2, by omega⟩ 1) * b (pairIdx ⟨k.val / 2, by omega⟩ 1) *
          zetaPair ⟨k.val / 2, by omega⟩
    else
      a (pairIdx ⟨k.val / 2, by omega⟩ 0) * b (pairIdx ⟨k.val / 2, by omega⟩ 1) +
        a (pairIdx ⟨k.val / 2, by omega⟩ 1) * b (pairIdx ⟨k.val / 2, by omega⟩ 0)

/-- Modelled from the spec: `poly_basemul_montgomery_cached` (only declared in
`src/mlkem/poly.h`) — the same pairwise product, but the odd-times-twiddle
term of `b` is read from the precomputed cache instead of being recomputed. -/
def poly_basemul_montgomery_cached (a b : Fin 256 → ZMod 3329)
    (b_cache : Fin 128 → ZMod 3329) : Fin 256 → ZMod 3329 :=
  fun k =>
    if k.val % 2 = 0 then
      a (pairIdx ⟨k.val / 2, by omega⟩ 0) * b (pairIdx ⟨k.val / 2, by omega⟩ 0) +
        a (pairIdx ⟨k.val / 2, by omega⟩ 1) * b_cache ⟨k.val / 2, by omega⟩
    else
      a (pairIdx ⟨k.val / 2, by omega⟩ 0) * b (pairIdx ⟨k.val / 2, by omega⟩ 1) +
        a (pairIdx ⟨k.val / 2, by omega⟩ 1) * b (pairIdx ⟨k.val / 2, by omega⟩ 0)

/-- Modelled from the spec: `poly_reduce` (only declared in
`src/mlkem/poly.h`) brings every coefficient back into canonical range; the
canonical representative of `c` modulo `q` is `c mod q ∈ [0, q-1]`. -/
def poly_reduce (a : Fin 256 → ℤ) : Fin 256 → ℤ :=
  fun i => a i % (MLKEM_Q : ℤ)

/-- Modelled from the spec: `poly_frombytes` (only declared in
`src/mlkem/poly.h`) unpacks 12 bits per coefficient from the dense byte
buffer, little-bit-endian across byte boundaries: coefficient `2i` takes byte
`3i` plus the low nibble of byte `3i+1`; coefficient `2i+1` takes the high
nibble of byte `3i+1` plus byte `3i+2`. -/
def poly_frombytes (bytes : ℕ → Fin 256) : Fin 256 → ℕ :=
  fun k =>
    if k.val % 2 = 0 then
      (bytes (3 * (k.val / 2))).val + 256 * ((bytes (3 * (k.val / 2) + 1)).val % 16)
    else
      (bytes (3 * (k.val / 2) + 1)).val / 16 + 16 * (bytes (3 * (k.val / 2) + 2)).val

/-- Modelled from the spec: `poly_decompress` at compression width 4 (only
declared in `src/mlkem/poly.h`) — unpack each 4-bit code and apply the scalar
decompression of `src/mlkem/poly.h`. -/
def poly_decompress_d4 (codes : Fin 256 → Fin 16) : Fin 256 → ℕ :=
  fun i => scalar_decompress_q_16 (codes i).val

/-- Modelled from the spec: `poly_decompress` at compression width 5 (only
declared in `src/mlkem/poly.h`) — unpack each 5-bit code and apply the scalar
decompression of `src/mlkem/poly.h`. -/
def poly_decompress_d5 (codes : Fin 256 → Fin 32) : Fin 256 → ℕ :=
  fun i => scalar_decompress_q_32 (codes i).val

/-- Bit `k` of a little-endian byte stream. -/
def byteStreamBit (s : ℕ → Fin 256) (k : ℕ) : Bool :=
  decide ((s (k / 8)).val / 2 ^ (k % 8) % 2 = 1)

/-- Modelled from the spec: the centered-binomial sampler core — coefficient
`i` consumes `2η` consecutive bits of the pseudorandom stream and returns
(sum of the first η bits) minus (sum of the next η bits). -/
def cbd (η : ℕ) (bits : ℕ → Bool) : Fin 256 → ℤ :=
  fun i =>
    (∑ j in Finset.range η, if bits (2 * η * i.val + j) then (1 : ℤ) else 0) -
      (∑ j in Finset.range η, if bits (2 * η * i.val + η + j) then (1 : ℤ) else 0)

/-- Modelled from the spec: a single-lane noise sampler for parameter `η` —
absorb seed and nonce into the XOF (abstracted as `prf`), squeeze a byte
stream, and sample centered-binomial coefficients from its bits. -/
def poly_getnoise (η : ℕ) (prf : (Fin 32 → Fin 256) → Fin 256 → ℕ → Fin 256)
    (seed : Fin 32 → Fin 256) (nonce : Fin 256) : Fin 256 → ℤ :=
  cbd η (byteStreamBit (prf seed nonce))

/-- Modelled from the spec: `poly_getnoise_eta2` (only declared in
`src/mlkem/poly.h`) — the single-lane sampler at `η = 2`. -/
def poly_getnoise_eta2 (prf : (Fin 32 → Fin 256) → Fin 256 → ℕ → Fin 256)
    (seed : Fin 32 → Fin 256) (nonce : Fin 256) : Fin 256 → ℤ :=
  poly_getnoise 2 prf seed nonce

/-- Modelled from the spec: `shake256x4_squeezeblocks` (only declared in
`src/fips202/fips202x4.h`) — per the §6 interface contract, the 4-lane sponge
packs four independent absorbs into one state and squeezes four independent
output streams, each identical to the single-lane stream for its input. -/
def shake256x4_squeezeblocks (prf : (Fin 32 → Fin 256) → Fin 256 → ℕ → Fin 256)
    (seed : Fin 32 → Fin 256) (n0 n1 n2 n3 : Fin 256) :
    (ℕ → Fin 256) × (ℕ → Fin 256) × (ℕ → Fin 256) × (ℕ → Fin 256) :=
  (prf seed n0, prf seed n1, prf seed n2, prf seed n3)

/-- Modelled from the spec: the 4-way batched noise sampler (such as
`poly_getnoise_eta2_4x`, only declared in `src/mlkem/poly.h`) — one
interleaved call to the 4-lane sponge, then per-lane centered-binomial
sampling; lane `l` uses parameter `ηl`, covering the mixed-η batched
variant as well. -/
def poly_getnoise_4x (η0 η1 η2 η3 : ℕ)
    (prf : (Fin 32 → Fin 256) → Fin 256 → ℕ → Fin 256)
    (seed : Fin 32 → Fin 256) (n0 n1 n2 n3 : Fin 256) :
    (Fin 256 → ℤ) × (Fin 256 → ℤ) × (Fin 256 → ℤ) × (Fin 256 → ℤ) :=
  let s := shake256x4_squeezeblocks prf seed n0 n1 n2 n3
  (cbd η0 (byteStreamBit s.1), cbd η1 (byteStreamBit s.2.1),
    cbd η2 (byteStreamBit s.2.2.1), cbd η3 (byteStreamBit s.2.2.2))

/-- Modelled from the spec: `poly_getnoise_eta2_4x` (only declared in
`src/mlkem/poly.h`) — the batched sampler with all four lanes at `η = 2`. -/
def poly_getnoise_eta2_4x (prf : (Fin 32 → Fin 256) → Fin 256 → ℕ → Fin 256)
    (seed : Fin 32 → Fin 256) (n0 n1 n2 n3 : Fin 256) :
    (Fin 256 → ℤ) × (Fin 256 → ℤ) × (Fin 256 → ℤ) × (Fin 256 → ℤ) :=
  poly_getnoise_4x 2 2 2 2 prf seed n0 n1 n2 n3

/-- Modelled from the spec: `poly_frommsg` (only declared in
`src/mlkem/poly.h`) — bit 0 maps to coefficient 0 and bit 1 to the exact
canonical midpoint `(q+1)/2 = 1665`. -/
def poly_frommsg (m : Fin 256 → Bool) : Fin 256 → ℕ :=
  fun i => if m i then 1665 else 0

/-- Modelled from the spec: `poly_tomsg` (only declared in
`src/mlkem/poly.h`) — recover each bit by the 1-bit compress formula
`((u * 2 + q/2) / q) mod 2`, the `b = 1` instance of the scalar codec. -/
def poly_tomsg (a : Fin 256 → ℕ) : Fin 256 → Bool :=
  fun i => decide ((a i * 2 + 1664) / MLKEM_Q % 2 = 1)

/-- The fixed-point multiply-and-shift of `scalar_compress_q_16` equals the
rounded division `((u * 16 + 1664) / 3329) % 16` on the whole input range. -/
theorem compress16_eq (u : ℕ) (hu : u ≤ 3328) :
    scalar_compress_q_16 u = (u * 16 + 1664) / 3329 % 16 := by
  simp only [scalar_compress_q_16, U32]
  have h1 : u * 16 % 2 ^ 32 = u * 16 := by omega
  have h2 : (u * 16 + 1665) % 2 ^ 32 = u * 16 + 1665 := by omega
  rw [h1, h2]
  have h3 : ∀ x : ℕ, x % 2 ^ 32 / 2 ^ 28 % 16 = x / 2 ^ 28 % 16 := fun x => by omega
  rw [h3]
  have h4 : (u * 16 + 1665) * 80635 / 2 ^ 28 = (u * 16 + 1664) / 3329 := by omega
  rw [h4]

/-- The fixed-point multiply-and-shift of `scalar_compress_q_32` equals the
rounded division `((u * 32 + 1664) / 3329) % 32` on the whole input range. -/
theorem compress32_eq (u : ℕ) (hu : u ≤ 3328) :
    scalar_compress_q_32 u = (u * 32 + 1664) / 3329 % 32 := by
  simp only [scalar_compress_q_32, U32]
  have h1 : u * 32 % 2 ^ 32 = u * 32 := by omega
  have h2 : (u * 32 + 1664) % 2 ^ 32 = u * 32 + 1664 := by omega
  rw [h1, h2]
  have h3 : ∀ x : ℕ, x % 2 ^ 32 / 2 ^ 27 % 32 = x / 2 ^ 27 % 32 := fun x => by omega
  rw [h3]
  have h4 : (u * 32 + 1664) * 40318 / 2 ^ 27 = (u * 32 + 1664) / 3329 := by omega
  rw [h4]

/-- Decompression of a 4-bit code stays within the canonical range. -/
theorem decompress16_le (d : ℕ) (hd : d < 16) : scalar_decompress_q_16 d ≤ 3328 := by
  simp only [scalar_decompress_q_16, MLKEM_Q, U32]
  have h : (d * 3329 + 8) % 2 ^ 32 = d * 3329 + 8 := by omega
  rw [h]
  omega

/-- Decompression of a 5-bit code stays within the canonical range. -/
theorem decompress32_le (d : ℕ) (hd : d < 32) : scalar_decompress_q_32 d ≤ 3328 := by
  simp only [scalar_decompress_q_32, MLKEM_Q, U32]
  have h : (d * 3329 + 16) % 2 ^ 32 = d * 3329 + 16 := by omega
  rw [h]
  omega

/-- C1: for every `u` in `[0, q-1]`, the fixed-point multiply-and-shift
implementations of scalar compression return exactly the rounded-division
values `((u*16 + 1664) / 3329) % 16` and `((u*32 + 1664) / 3329) % 32`,
even though the intermediate multiply wraps modulo `2^32`. -/
theorem compress_fixed_point_exact (u : ℕ) (hu : u ≤ 3328) :
    scalar_compress_q_16 u = (u * 16 + 1664) / 3329 % 16 ∧
    scalar_compress_q_32 u = (u * 32 + 1664) / 3329 % 32 :=
  ⟨compress16_eq u hu, compress32_eq u hu⟩

/-- Witness for C1 at the concrete input `u = 2500`. -/
theorem compress_fixed_point_exact_witness :
    scalar_compress_q_16 2500 = (2500 * 16 + 1664) / 3329 % 16 ∧
    scalar_compress_q_32 2500 = (2500 * 32 + 1664) / 3329 % 32 :=
  compress_fixed_point_exact 2500 (by norm_num)

/-- C4: for every `u` in `[0, q-1]`, decompressing the compression of `u`
returns a value within modular distance `104` of `u` for the 16-bucket codec
and within `52` for the 32-bucket codec. -/
theorem compress_decompress_roundtrip_error (u : ℕ) (hu : u ≤ 3328) :
    modQDist (scalar_decompress_q_16 (scalar_compress_q_16 u)) u ≤ 104 ∧
    modQDist (scalar_decompress_q_32 (scalar_compress_q_32 u)) u ≤ 52 := by
  constructor
  · rw [compress16_eq u hu]
    simp only [scalar_decompress_q_16, modQDist, absDiff, MLKEM_Q, U32]
    have h1 := Nat.div_add_mod (u * 16 + 1664) 3329
    have h2 : (u * 16 + 1664) % 3329 < 3329 := Nat.mod_lt _ (by norm_num)
    set c := (u * 16 + 1664) / 3329 with hc
    have hcb : c ≤ 16 := by omega
    interval_cases c <;> omega
  · rw [compress32_eq u hu]
    simp only [scalar_decompress_q_32, modQDist, absDiff, MLKEM_Q, U32]
    have h1 := Nat.div_add_mod (u * 32 + 1664) 3329
    have h2 : (u * 32 + 1664) % 3329 < 3329 := Nat.mod_lt _ (by norm_num)
    set c := (u * 32 + 1664) / 3329 with hc
    have hcb : c ≤ 32 := by omega
    interval_cases c <;> omega

/-- Witness for C4 at the concrete input `u = 3328` (the wrap-around case). -/
theorem compress_decompress_roundtrip_error_witness :
    modQDist (scalar_decompress_q_16 (scalar_compress_q_16 3328)) 3328 ≤ 104 ∧
    modQDist (scalar_decompress_q_32 (scalar_compress_q_32 3328)) 3328 ≤ 52 :=
  compress_decompress_roundtrip_error 3328 (by norm_num)

/-- C8: `scalar_decompress_q_16` and `scalar_decompress_q_32` return exactly
`round(d * q / 2^b)` (round-half-up, as in the C integer formula) and the
result lies in `[0, q-1]`. -/
theorem decompress_exact_round :
    (∀ d : ℕ, d < 16 →
      (scalar_decompress_q_16 d : ℤ) = round ((d * 3329 : ℚ) / 16) ∧
      scalar_decompress_q_16 d ≤ 3328) ∧
    (∀ d : ℕ, d < 32 →
      (scalar_decompress_q_32 d : ℤ) = round ((d * 3329 : ℚ) / 32) ∧
      scalar_decompress_q_32 d ≤ 3328) := by
  constructor
  · intro d hd
    refine ⟨?_, decompress16_le d hd⟩
    have h : ((d * 3329 : ℚ)) / 16 + 1 / 2 = ((d * 3329 * 2 + 16 : ℤ) : ℚ) / ((32 : ℕ) : ℚ) := by
      push_cast
      ring
    rw [round_eq, h, Rat.floor_intCast_div_natCast]
    simp only [scalar_decompress_q_16, MLKEM_Q, U32]
    omega
  · intro d hd
    refine ⟨?_, decompress32_le d hd⟩
    have h : ((d * 3329 : ℚ)) / 32 + 1 / 2 = ((d * 3329 * 2 + 32 : ℤ) : ℚ) / ((64 : ℕ) : ℚ) := by
      push_cast
      ring
    rw [round_eq, h, Rat.floor_intCast_div_natCast]
    simp only [scalar_decompress_q_32, MLKEM_Q, U32]
    omega

/-- Witness for C8 at the concrete inputs `d = 9` (4-bit) and `d = 23` (5-bit). -/
theorem decompress_exact_round_witness :
    ((scalar_decompress_q_16 9 : ℤ) = round ((9 * 3329 : ℚ) / 16) ∧
      scalar_decompress_q_16 9 ≤ 3328) ∧
    ((scalar_decompress_q_32 23 : ℤ) = round ((23 * 3329 : ℚ) / 32) ∧
      scalar_decompress_q_32 23 ≤ 3328) :=
  ⟨decompress_exact_round.1 9 (by norm_num), decompress_exact_round.2 23 (by norm_num)⟩

/-- C9: `scalar_signed_to_unsigned_q_16` adds `q` exactly to negative inputs,
lands in `[0, q-1]` on the whole signed canonical range, and matches the six
documented literal cases. -/
theorem signed_to_unsigned_spec :
    (∀ c : ℤ, -3328 ≤ c → c ≤ 3328 →
      scalar_signed_to_unsigned_q_16 c = (if c < 0 then c + 3329 else c) ∧
      0 ≤ scalar_signed_to_unsigned_q_16 c ∧
      scalar_signed_to_unsigned_q_16 c ≤ 3328) ∧
    scalar_signed_to_unsigned_q_16 0 = 0 ∧
    scalar_signed_to_unsigned_q_16 1 = 1 ∧
    scalar_signed_to_unsigned_q_16 3328 = 3328 ∧
    scalar_signed_to_unsigned_q_16 (-1) = 3328 ∧
    scalar_signed_to_unsigned_q_16 (-2) = 3327 ∧
    scalar_signed_to_unsigned_q_16 (-3328) = 1 := by
  refine ⟨?_, by decide, by decide, by decide, by decide, by decide, by decide⟩
  intro c h1 h2
  simp only [scalar_signed_to_unsigned_q_16, cmov_int16, MLKEM_Q]
  by_cases hc : c < 0 <;> simp [hc] <;> omega

/-- Witness for C9 at the concrete input `c = -5`. -/
theorem signed_to_unsigned_spec_witness :
    scalar_signed_to_unsigned_q_16 (-5) = (if (-5 : ℤ) < 0 then -5 + 3329 else -5) ∧
    0 ≤ scalar_signed_to_unsigned_q_16 (-5) ∧
    scalar_signed_to_unsigned_q_16 (-5) ≤ 3328 :=
  signed_to_unsigned_spec.1 (-5) (by norm_num) (by norm_num)

/-- C10: scalar compression is an exact left inverse of decompression on the
code domain: `compress (decompress d) = d` for every 4-bit code `d < 16` and
every 5-bit code `d < 32`. -/
theorem compress_left_inverse_of_decompress :
    (∀ d : ℕ, d < 16 → scalar_compress_q_16 (scalar_decompress_q_16 d) = d) ∧
    (∀ d : ℕ, d < 32 → scalar_compress_q_32 (scalar_decompress_q_32 d) = d) := by
  constructor
  · intro d hd
    rw [compress16_eq _ (decompress16_le d hd)]
    simp only [scalar_decompress_q_16, MLKEM_Q, U32]
    interval_cases d <;> omega
  · intro d hd
    rw [compress32_eq _ (decompress32_le d hd)]
    simp only [scalar_decompress_q_32, MLKEM_Q, U32]
    interval_cases d <;> omega

/-- Witness for C10 at the concrete codes `d = 15` (4-bit) and `d = 31` (5-bit). -/
theorem compress_left_inverse_of_decompress_witness :
    scalar_compress_q_16 (scalar_decompress_q_16 15) = 15 ∧
    scalar_compress_q_32 (scalar_decompress_q_32 31) = 31 :=
  ⟨compress_left_inverse_of_decompress.1 15 (by norm_num),
    compress_left_inverse_of_decompress.2 31 (by norm_num)⟩

theorem zeta_mul_zetaInv : zeta * zetaInv = 1 := by decide

set_option maxRecDepth 4000 in
theorem zeta_pow_256 : zeta ^ 256 = 1 := by decide

set_option maxRecDepth 4000 in
theorem zetaInv_pow_256 : zetaInv ^ 256 = 1 := by decide

theorem zeta_ne_zero : zeta ≠ 0 := by decide

theorem inv128_mul_128 : inv128 * 128 = 1 := by decide

set_option maxRecDepth 40000 in
theorem zeta_pow_ne_one_aux : ∀ k : Fin 256, k.val ≠ 0 → zeta ^ k.val ≠ 1 := by decide

theorem zeta_pow_ne_one {k : ℕ} (h0 : 0 < k) (h1 : k < 256) : zeta ^ k ≠ 1 :=
  zeta_pow_ne_one_aux ⟨k, h1⟩ (by simpa using h0.ne')

/-- The even powers `zeta^(2a)` are pairwise distinct for `a < 128`
(`zeta^2` has multiplicative order 128). -/
theorem zeta_pow_injective {a b : ℕ} (ha : a < 128) (hb : b < 128)
    (h : zeta ^ (2 * a) = zeta ^ (2 * b)) : a = b := by
  rcases Nat.lt_trichotomy a b with hab | hab | hab
  · exfalso
    have hsplit : zeta ^ (2 * b) = zeta ^ (2 * a) * zeta ^ (2 * (b - a)) := by
      rw [← pow_add]
      congr 1
      omega
    rw [hsplit] at h
    have h2 : zeta ^ (2 * a) * 1 = zeta ^ (2 * a) * zeta ^ (2 * (b - a)) := by
      rw [mul_one]
      exact h
    have := mul_left_cancel₀ (pow_ne_zero (2 * a) zeta_ne_zero) h2
    exact zeta_pow_ne_one (by omega) (by omega) this.symm
  · exact hab
  · exfalso
    have hsplit : zeta ^ (2 * a) = zeta ^ (2 * b) * zeta ^ (2 * (a - b)) := by
      rw [← pow_add]
      congr 1
      omega
    rw [hsplit] at h
    have h2 : zeta ^ (2 * b) * zeta ^ (2 * (a - b)) = zeta ^ (2 * b) * 1 := by
      rw [mul_one]
      exact h
    have := mul_left_cancel₀ (pow_ne_zero (2 * b) zeta_ne_zero) h2
    exact zeta_pow_ne_one (by omega) (by omega) this

/-- Orthogonality of the odd powers of `zeta`: summed over all 128 odd
exponents, the mixed products collapse to `128` on the diagonal and `0` off it. -/
theorem zeta_orthogonality (j' j : Fin 128) :
    ∑ i : Fin 128, zeta ^ ((2 * i.val + 1) * j'.val) * zetaInv ^ ((2 * i.val + 1) * j.val) =
      if j' = j then (128 : ZMod 3329) else 0 := by
  have hterm : ∀ i : Fin 128,
      zeta ^ ((2 * i.val + 1) * j'.val) * zetaInv ^ ((2 * i.val + 1) * j.val) =
        (zeta ^ j'.val * zetaInv ^ j.val) ^ (2 * i.val) * (zeta ^ j'.val * zetaInv ^ j.val) := by
    intro i
    rw [mul_comm (2 * i.val + 1) j'.val, mul_comm (2 * i.val + 1) j.val,
      pow_mul, pow_mul, ← mul_pow, pow_succ]
  rw [Finset.sum_congr rfl fun i _ => hterm i]
  set w := zeta ^ j'.val * zetaInv ^ j.val with hw
  have hsum : ∑ i : Fin 128, w ^ (2 * i.val) * w = (∑ i in Finset.range 128, (w ^ 2) ^ i) * w := by
    rw [Finset.sum_mul, ← Fin.sum_univ_eq_sum_range (fun n => (w ^ 2) ^ n * w) 128]
    refine Finset.sum_congr rfl fun i _ => ?_
    rw [← pow_mul]
  rw [hsum]
  by_cases hjj : j' = j
  · subst hjj
    have hw1 : w = 1 := by
      rw [hw, ← mul_pow, zeta_mul_zetaInv, one_pow]
    rw [hw1]
    simp
  · have hw256 : w ^ 256 = 1 := by
      rw [hw, mul_pow, ← pow_mul, ← pow_mul, mul_comm (j'.val) 256, mul_comm (j.val) 256,
        pow_mul, pow_mul, zeta_pow_256, zetaInv_pow_256, one_pow, one_pow, one_mul]
    have hw2 : w ^ 2 ≠ 1 := by
      intro habs
      have hz : zeta ^ (2 * j'.val) * zetaInv ^ (2 * j.val) = 1 := by
        rw [← habs, hw, mul_pow, ← pow_mul, ← pow_mul, mul_comm j'.val 2, mul_comm j.val 2]
      have hzz : zeta ^ (2 * j'.val) = zeta ^ (2 * j.val) := by
        have h3 : zeta ^ (2 * j'.val) * (zetaInv ^ (2 * j.val) * zeta ^ (2 * j.val)) =
            zeta ^ (2 * j.val) := by
          rw [← mul_assoc, hz, one_mul]
        rwa [← mul_pow, mul_comm zetaInv zeta, zeta_mul_zetaInv, one_pow, mul_one] at h3
      exact hjj (Fin.ext (zeta_pow_injective j'.isLt j.isLt hzz))
    have hgeom : ∑ i in Finset.range 128, (w ^ 2) ^ i = 0 := by
      rw [geom_sum_eq hw2 128, ← pow_mul]
      norm_num
      rw [hw256]
      simp
    rw [hgeom, zero_mul]
    simp [hjj]

/-- The half-size inverse transform undoes the half-size forward transform. -/
theorem inttHalf_nttHalf (f : Fin 128 → ZMod 3329) : inttHalf (nttHalf f) = f := by
  funext j
  show inv128 * ∑ i : Fin 128,
      (∑ j' : Fin 128, f j' * zeta ^ ((2 * (bitrev7 i).val + 1) * j'.val)) *
        zetaInv ^ ((2 * (bitrev7 i).val + 1) * j.val) = f j
  have hre : ∑ i : Fin 128,
      (∑ j' : Fin 128, f j' * zeta ^ ((2 * (bitrev7 i).val + 1) * j'.val)) *
        zetaInv ^ ((2 * (bitrev7 i).val + 1) * j.val) =
      ∑ m : Fin 128,
        (∑ j' : Fin 128, f j' * zeta ^ ((2 * m.val + 1) * j'.val)) *
          zetaInv ^ ((2 * m.val + 1) * j.val) :=
    Fintype.sum_equiv brEquiv _ _ fun i => rfl
  rw [hre]
  have h1 : ∀ m : Fin 128,
      (∑ j' : Fin 128, f j' * zeta ^ ((2 * m.val + 1) * j'.val)) *
        zetaInv ^ ((2 * m.val + 1) * j.val) =
      ∑ j' : Fin 128, f j' *
        (zeta ^ ((2 * m.val + 1) * j'.val) * zetaInv ^ ((2 * m.val + 1) * j.val)) := by
    intro m
    rw [Finset.sum_mul]
    exact Finset.sum_congr rfl fun j' _ => by ring
  rw [Finset.sum_congr rfl fun m _ => h1 m, Finset.sum_comm]
  have h2 : ∀ j' : Fin 128,
      ∑ m : Fin 128, f j' *
        (zeta ^ ((2 * m.val + 1) * j'.val) * zetaInv ^ ((2 * m.val + 1) * j.val)) =
      f j' * (if j' = j then (128 : ZMod 3329) else 0) := by
    intro j'
    rw [← Finset.mul_sum, zeta_orthogonality j' j]
  rw [Finset.sum_congr rfl fun j' _ => h2 j']
  have h3 : ∑ j' : Fin 128, f j' * (if j' = j then (128 : ZMod 3329) else 0) = f j * 128 := by
    rw [Finset.sum_congr rfl fun j' _ => mul_ite (j' = j) (f j') (128 : ZMod 3329) 0]
    simp
  rw [h3]
  have h4 : inv128 * (f j * 128) = (inv128 * 128) * f j := by ring
  rw [h4, inv128_mul_128, one_mul]

/-- Evaluating the full transform at a pair position reduces to the half
transform of the matching coefficient half. -/
theorem ntt_pairIdx (a : Fin 256 → ZMod 3329) (i : Fin 128) (ε : Fin 2) :
    ntt a (pairIdx i ε) = nttHalf (subPoly a ε) i := by
  unfold ntt
  have h1 : (pairIdx i ε).val % 2 = ε.val := by
    simp only [pairIdx]
    omega
  have h2 : (pairIdx i ε).val / 2 = i.val := by
    simp only [pairIdx]
    omega
  have hε : (⟨(pairIdx i ε).val % 2, by omega⟩ : Fin 2) = ε := Fin.ext (by simpa using h1)
  have hi : (⟨(pairIdx i ε).val / 2, by omega⟩ : Fin 128) = i := Fin.ext (by simpa using h2)
  exact congrArg₂ (fun (s : Fin 2) (t : Fin 128) => nttHalf (subPoly a s) t) hε hi

/-- C2: the NTT round-trip identity — for every ring element `a`, the inverse
transform of the forward transform (with the `1/128` Montgomery-rescale
factor absorbed, per the `poly_tomont` convention) reproduces `a` exactly:
working in `ZMod q`, every output coefficient is the canonical residue of the
corresponding input coefficient. -/
theorem ntt_intt_roundtrip (a : Fin 256 → ZMod 3329) : intt (ntt a) = a := by
  funext k
  show inttHalf (subPoly (ntt a) ⟨k.val % 2, by omega⟩) ⟨k.val / 2, by omega⟩ = a k
  have hsub : subPoly (ntt a) (⟨k.val % 2, by omega⟩ : Fin 2) =
      nttHalf (subPoly a ⟨k.val % 2, by omega⟩) := by
    funext i
    exact ntt_pairIdx a i _
  rw [hsub, inttHalf_nttHalf]
  show a (pairIdx ⟨k.val / 2, by omega⟩ ⟨k.val % 2, by omega⟩) = a k
  congr 1
  apply Fin.ext
  simp only [pairIdx]
  omega

/-- C3: cached base multiplication computes exactly the from-scratch
NTT-domain base multiplication when the cache is computed from `b`; the cache
never changes the output value. -/
theorem basemul_cached_eq_uncached (a b : Fin 256 → ZMod 3329) :
    poly_basemul_montgomery_cached a b (poly_mulcache_compute b) =
      poly_basemul_montgomery a b := by
  funext k
  unfold poly_basemul_montgomery_cached poly_basemul_montgomery poly_mulcache_compute
  by_cases h : k.val % 2 = 0 <;> simp [h, mul_assoc]

/-- C5: canonical-range postconditions — `poly_reduce` lands in `[0, q-1]`
while preserving the residue class, `poly_frombytes` coefficients are 12-bit
values, `poly_decompress` coefficients lie in `[0, q-1]` for both compressed
widths, and every centered-binomial noise coefficient lies in `[-η, η]`. -/
theorem canonical_range_postconditions :
    (∀ (a : Fin 256 → ℤ) (i : Fin 256),
      0 ≤ poly_reduce a i ∧ poly_reduce a i ≤ 3328 ∧
        ((poly_reduce a i : ZMod 3329) = ((a i : ℤ) : ZMod 3329))) ∧
    (∀ (bytes : ℕ → Fin 256) (i : Fin 256), poly_frombytes bytes i < 4096) ∧
    (∀ (codes : Fin 256 → Fin 16) (i : Fin 256), poly_decompress_d4 codes i ≤ 3328) ∧
    (∀ (codes : Fin 256 → Fin 32) (i : Fin 256), poly_decompress_d5 codes i ≤ 3328) ∧
    (∀ (η : ℕ) (bits : ℕ → Bool) (i : Fin 256),
      -(η : ℤ) ≤ cbd η bits i ∧ cbd η bits i ≤ (η : ℤ)) := by
  refine ⟨?_, ?_, ?_, ?_, ?_⟩
  · intro a i
    refine ⟨Int.emod_nonneg _ (by simp [MLKEM_Q]), ?_, ?_⟩
    · have := Int.emod_lt_of_pos (a i) (show (0 : ℤ) < (MLKEM_Q : ℤ) by simp [MLKEM_Q])
      simp only [poly_reduce, MLKEM_Q] at *
      omega
    · show (((a i % (MLKEM_Q : ℤ)) : ℤ) : ZMod 3329) = ((a i : ℤ) : ZMod 3329)
      rw [ZMod.intCast_eq_intCast_iff]
      show a i % (MLKEM_Q : ℤ) % (3329 : ℤ) = a i % (3329 : ℤ)
      simp [MLKEM_Q]
  · intro bytes i
    simp only [poly_frombytes]
    have h1 := (bytes (3 * (i.val / 2))).isLt
    have h2 := (bytes (3 * (i.val / 2) + 1)).isLt
    have h3 := (bytes (3 * (i.val / 2) + 2)).isLt
    by_cases h : i.val % 2 = 0 <;> simp [h] <;> omega
  · intro codes i
    exact decompress16_le _ (codes i).isLt
  · intro codes i
    exact decompress32_le _ (codes i).isLt
  · intro η bits i
    simp only [cbd]
    have hlow : ∀ (s : ℕ),
        0 ≤ ∑ j in Finset.range η, (if bits (s + j) then (1 : ℤ) else 0) :=
      fun s => Finset.sum_nonneg fun j _ => by positivity
    have hhigh : ∀ (s : ℕ),
        (∑ j in Finset.range η, (if bits (s + j) then (1 : ℤ) else 0)) ≤ η := by
      intro s
      calc (∑ j in Finset.range η, (if bits (s + j) then (1 : ℤ) else 0))
          ≤ ∑ j in Finset.range η, (1 : ℤ) :=
            Finset.sum_le_sum fun j _ => by split <;> norm_num
        _ = η := by simp
    have l1 := hlow (2 * η * i.val)
    have l2 := hhigh (2 * η * i.val)
    have l3 := hlow (2 * η * i.val + η)
    have l4 := hhigh (2 * η * i.val + η)
    constructor <;> omega

/-- C6: the 4-way batched noise sampler equals four independent single-lane
invocations with the same seed and the respective nonces, coefficientwise —
for arbitrary per-lane η (covering the η1/η2 and mixed batched entry points)
and in particular for `poly_getnoise_eta2_4x` against `poly_getnoise_eta2`. -/
theorem getnoise_4x_eq_single_lane :
    (∀ (η0 η1 η2 η3 : ℕ) (prf : (Fin 32 → Fin 256) → Fin 256 → ℕ → Fin 256)
      (seed : Fin 32 → Fin 256) (n0 n1 n2 n3 : Fin 256),
      poly_getnoise_4x η0 η1 η2 η3 prf seed n0 n1 n2 n3 =
        (poly_getnoise η0 prf seed n0, poly_getnoise η1 prf seed n1,
          poly_getnoise η2 prf seed n2, poly_getnoise η3 prf seed n3)) ∧
    (∀ (prf : (Fin 32 → Fin 256) → Fin 256 → ℕ → Fin 256)
      (seed : Fin 32 → Fin 256) (n0 n1 n2 n3 : Fin 256),
      poly_getnoise_eta2_4x prf seed n0 n1 n2 n3 =
        (poly_getnoise_eta2 prf seed n0, poly_getnoise_eta2 prf seed n1,
          poly_getnoise_eta2 prf seed n2, poly_getnoise_eta2 prf seed n3)) :=
  ⟨fun _ _ _ _ _ _ _ _ _ _ => rfl, fun _ _ _ _ _ _ => rfl⟩

set_option maxRecDepth 40000 in
/-- C7: the message codec round-trips — decoding the encoding of any 256-bit
message recovers it bit for bit. -/
theorem tomsg_frommsg_roundtrip (m : Fin 256 → Bool) :
    poly_tomsg (poly_frommsg m) = m := by
  funext i
  simp only [poly_tomsg, poly_frommsg, MLKEM_Q]
  rcases Bool.eq_false_or_eq_true (m i) with h | h <;> simp only [h] <;> rfl
